import Mathlib

/-!
Verification of the drawing/undo engine and sprite animator of the move-app
repository (`src/App.tsx`), via a shallow embedding.

* Pixel buffers are row-major lists of RGBA colors (`Buf`), mirroring the
  `ImageData` flat byte array grouped into 4-byte pixels.
* `fillFlood` embeds the breadth-first flood fill; the unbounded `while`
  loop over the FIFO queue is embedded with an explicit fuel parameter, and
  a fuel-sufficiency theorem shows the chosen fuel always drains the queue.
* `saveHistory` / `undo` / `redo` / `stopAnimation` embed the history logic
  on a store that is polymorphic in the snapshot payload (the history code
  treats `ImageData` opaquely); `blank` stands for the all-white buffer.
* `animate` and `speakRandom` embed the per-frame physics and the random
  re-speeding, with JS numbers modelled as rationals and `Math.random()`
  draws passed explicitly as arguments in `[0,1)`.
-/

namespace MoveApp

/-! ## Colors and pixel buffers -/

/-- One RGBA pixel (four channels, each a byte in the real program). -/
structure Color where
  r : Nat
  g : Nat
  b : Nat
  a : Nat
deriving DecidableEq

/-- The opaque-white pixel `(255,255,255,255)`. -/
def white : Color := ⟨255, 255, 255, 255⟩

/-- A pixel buffer: width, height and row-major pixel data
(`data[(y * width + x)]` is the pixel at `(x, y)`), mirroring `ImageData`. -/
structure Buf where
  width : Nat
  height : Nat
  data : List Color
deriving DecidableEq

/-- Flat index of coordinate `p = (x, y)`: `y * width + x`
(as in `const idx = (py * canvasWidth + px) * 4`, grouped per pixel). -/
def flatIdx (w : Nat) (p : Int × Int) : Nat := (p.2 * (w : Int) + p.1).toNat

/-- Pixel read used inside the fill loop, where coordinates are known to be
in bounds. -/
def colAt (w : Nat) (d : List Color) (p : Int × Int) : Color :=
  d.getD (flatIdx w p) ⟨0, 0, 0, 0⟩

/-- `(x, y)` lies inside the `w × h` buffer. -/
def InB (w h : Nat) (p : Int × Int) : Prop :=
  0 ≤ p.1 ∧ p.1 < (w : Int) ∧ 0 ≤ p.2 ∧ p.2 < (h : Int)

instance (w h : Nat) (p : Int × Int) : Decidable (InB w h p) := by
  unfold InB
  exact inferInstance

/-- `getPixelColor`: reads the four bytes at the flat index; a read outside
of the array (negative index or past the end) yields JS `undefined`,
modelled by `none`. -/
def getPixelColor (b : Buf) (x y : Int) : Option Color :=
  let flat : Int := y * (b.width : Int) + x
  if flat < 0 then none else b.data.get? flat.toNat

/-- The four von Neumann neighbours, in the order they are enqueued:
`[cx-1,cy]`, `[cx+1,cy]`, `[cx,cy-1]`, `[cx,cy+1]`. -/
def nbrs (p : Int × Int) : List (Int × Int) :=
  [(p.1 - 1, p.2), (p.1 + 1, p.2), (p.1, p.2 - 1), (p.1, p.2 + 1)]

/-- The `while (queue.length > 0)` body of `fillFlood`.  `targetOpt` is the
color sampled at the seed (`none` when that read was out of range, in which
case the comparison with any real pixel is `false`, as for JS `undefined`).
The loop is embedded with a fuel parameter; `floodLoop_drains` shows the
fuel used by `fillFlood` always suffices. -/
def floodLoop (w h : Nat) (targetOpt : Option Color) (fillColor : Color) :
    Nat → List Color → List (Int × Int) → List Color
  | 0, d, _ => d
  | _ + 1, d, [] => d
  | fuel + 1, d, c :: rest =>
    if c.1 < 0 ∨ (w : Int) ≤ c.1 ∨ c.2 < 0 ∨ (h : Int) ≤ c.2 then
      floodLoop w h targetOpt fillColor fuel d rest
    else if some (colAt w d c) = targetOpt then
      floodLoop w h targetOpt fillColor fuel
        (d.set (flatIdx w c) fillColor) (rest ++ nbrs c)
    else
      floodLoop w h targetOpt fillColor fuel d rest

/-- Same loop, additionally returning the list of coordinates that were
recolored, in order (a ghost trace used to state that each pixel is
mutated exactly once). -/
def floodLoopT (w h : Nat) (targetOpt : Option Color) (fillColor : Color) :
    Nat → List Color → List (Int × Int) → List Color × List (Int × Int)
  | 0, d, _ => (d, [])
  | _ + 1, d, [] => (d, [])
  | fuel + 1, d, c :: rest =>
    if c.1 < 0 ∨ (w : Int) ≤ c.1 ∨ c.2 < 0 ∨ (h : Int) ≤ c.2 then
      floodLoopT w h targetOpt fillColor fuel d rest
    else if some (colAt w d c) = targetOpt then
      let res := floodLoopT w h targetOpt fillColor fuel
        (d.set (flatIdx w c) fillColor) (rest ++ nbrs c)
      (res.1, c :: res.2)
    else
      floodLoopT w h targetOpt fillColor fuel d rest

/-- Fuel that always drains the queue (see `fillFlood_loop_fuel`). -/
def floodFuel (b : Buf) : Nat := 5 * b.width * b.height + 1

/-- `fillFlood` with an explicit iteration budget for the `while` loop. -/
def fillFloodWith (fuel : Nat) (b : Buf) (x y : Int) (fillColor : Color) : Buf :=
  let targetOpt := getPixelColor b x y
  if targetOpt = some fillColor then b
  else
    { b with data := floodLoop b.width b.height targetOpt fillColor fuel b.data [(x, y)] }

/-- The flood fill: sample the target color at the seed, return unchanged if
it equals the fill color, otherwise run the FIFO loop from the seed. -/
def fillFlood (b : Buf) (x y : Int) (fillColor : Color) : Buf :=
  fillFloodWith (floodFuel b) b x y fillColor

/-- The trace of recolored coordinates of a `fillFlood` run. -/
def fillFloodTrace (b : Buf) (x y : Int) (fillColor : Color) : List (Int × Int) :=
  let targetOpt := getPixelColor b x y
  if targetOpt = some fillColor then []
  else
    (floodLoopT b.width b.height targetOpt fillColor (floodFuel b) b.data [(x, y)]).2

/-- Whether the loop's queue drains to empty within the given fuel. -/
def floodDrains (w h : Nat) (targetOpt : Option Color) (fillColor : Color) :
    Nat → List Color → List (Int × Int) → Bool
  | 0, _, q => q.isEmpty
  | _ + 1, _, [] => true
  | fuel + 1, d, c :: rest =>
    if c.1 < 0 ∨ (w : Int) ≤ c.1 ∨ c.2 < 0 ∨ (h : Int) ≤ c.2 then
      floodDrains w h targetOpt fillColor fuel d rest
    else if some (colAt w d c) = targetOpt then
      floodDrains w h targetOpt fillColor fuel
        (d.set (flatIdx w c) fillColor) (rest ++ nbrs c)
    else
      floodDrains w h targetOpt fillColor fuel d rest

/-! ## The 4-connected closure (specification side of C3) -/

/-- `p` is in bounds and carries exactly the target color in data `d`. -/
def MatchesIn (w h : Nat) (d : List Color) (target : Color) (p : Int × Int) : Prop :=
  InB w h p ∧ colAt w d p = target

/-- A 4-connected path from `a` to `b` all of whose nodes after `a`
satisfy `S`. -/
def PathIn (S : Int × Int → Prop) (a b : Int × Int) : Prop :=
  Relation.ReflTransGen (fun u v => v ∈ nbrs u ∧ S v) a b

/-- The 4-connected closure over raw buffer components: a path from the
seed to `p` through in-bounds pixels whose color in `d0` equals `target`. -/
def ClosureP (w h : Nat) (d0 : List Color) (target : Color) (seed p : Int × Int) : Prop :=
  PathIn (MatchesIn w h d0 target) seed p

/-- `p` belongs to the 4-connected closure of same-colored pixels containing
the seed: there is a 4-connected path from the seed to `p` through pixels
whose color (in the original buffer) exactly equals the seed's color. -/
def InClosure (b : Buf) (seed p : Int × Int) : Prop :=
  ClosureP b.width b.height b.data (colAt b.width b.data seed) seed p

/-- Number of pixels of `d` whose color matches `targetOpt` — the measure
that makes the flood-fill loop terminate. -/
def matchCount (targetOpt : Option Color) (d : List Color) : Nat :=
  d.countP (fun c => decide (some c = targetOpt))

/-- The invariant maintained by the flood-fill loop: the data has the right
length, pixels outside the closure are untouched, pixels of the closure are
either still the target color or already recolored, every queued coordinate
is the seed or a neighbour of a recolored closure pixel, and every closure
pixel not yet recolored can be reached from some queued coordinate through
not-yet-recolored closure pixels. -/
def FloodInv (w h : Nat) (d0 : List Color) (target fillC : Color) (seed : Int × Int)
    (d : List Color) (q : List (Int × Int)) : Prop :=
  d.length = w * h
  ∧ (∀ p, InB w h p → ¬ ClosureP w h d0 target seed p → colAt w d p = colAt w d0 p)
  ∧ (∀ p, ClosureP w h d0 target seed p → colAt w d p = target ∨ colAt w d p = fillC)
  ∧ (∀ c ∈ q, c = seed ∨ ∃ r, ClosureP w h d0 target seed r ∧ colAt w d r = fillC ∧ c ∈ nbrs r)
  ∧ (∀ p, ClosureP w h d0 target seed p → colAt w d p = target →
      ∃ c ∈ q, (ClosureP w h d0 target seed c ∧ colAt w d c = target)
        ∧ PathIn (fun x => ClosureP w h d0 target seed x ∧ colAt w d x = target) c p)

/-! ## The history store (`saveHistory` / `undo` / `redo` / `stopAnimation`)

The store is polymorphic in the snapshot payload `α` (the history code never
inspects an `ImageData`); `blank` stands for the all-white buffer that
`ctx.fillRect` with white produces. -/

/-- Raster canvas store: current buffer, history stack, current index.
The index is an integer because `-1` is used as the "before first
snapshot" sentinel. -/
structure Store (α : Type) where
  buf : α
  hist : List α
  index : Int
deriving DecidableEq

/-- The post-startup state: blank buffer, history seeded with the blank
frame, index `0` (the initial `useEffect`). -/
def initStore {α : Type} (blank : α) : Store α := ⟨blank, [blank], 0⟩

/-- JS `Array.prototype.slice(0, e)`: a negative end counts from the end of
the array. -/
def jsSliceTo {α : Type} (l : List α) (e : Int) : List α :=
  l.take (if e < 0 then ((l.length : Int) + e).toNat else e.toNat)

/-- `saveHistory`: truncate the redo tail when the index is not at the top,
push the current buffer, then either drop the oldest entry (when the stack
exceeded 20) or advance the index. -/
def saveHistory {α : Type} (st : Store α) : Store α :=
  let stack0 :=
    if st.index < (st.hist.length : Int) - 1 then jsSliceTo st.hist (st.index + 1)
    else st.hist
  let stack1 := stack0 ++ [st.buf]
  if 20 < stack1.length then { st with hist := stack1.drop 1 }
  else { st with hist := stack1, index := st.index + 1 }

/-- `undo`: at index ≤ 0 reset to the blank buffer and the sentinel index
`-1`; otherwise decrement the index and restore that snapshot (a missing
entry leaves the buffer untouched, as `if (imageData)` does). -/
def undo {α : Type} (blank : α) (st : Store α) : Store α :=
  if st.index ≤ 0 then { st with buf := blank, index := -1 }
  else
    let i := st.index - 1
    { st with
      index := i
      buf := match st.hist.get? i.toNat with
             | some d => d
             | none => st.buf }

/-- `redo`: no-op at the top of the stack, otherwise increment the index and
restore that snapshot. -/
def redo {α : Type} (st : Store α) : Store α :=
  if (st.hist.length : Int) - 1 ≤ st.index then st
  else
    let i := st.index + 1
    { st with
      index := i
      buf := match st.hist.get? i.toNat with
             | some d => d
             | none => st.buf }

/-- `stopAnimation` effect on the store: clear the display to white and
reset the history to empty with index `-1`. -/
def stopAnimation {α : Type} (blank : α) (_st : Store α) : Store α :=
  ⟨blank, [], -1⟩

/-- `startDrawing` for a pen/fill action whose net effect on the buffer is
`f`: first `saveHistory()`, then mutate the buffer. -/
def strokeOp {α : Type} (st : Store α) (f : α → α) : Store α :=
  let st1 := saveHistory st
  { st1 with buf := f st1.buf }

/-- Apply a whole sequence of strokes starting from the post-startup
state. -/
def strokes {α : Type} (blank : α) (l : List (α → α)) : Store α :=
  l.foldl strokeOp (initStore blank)

/-- `n` repetitions of `undo`. -/
def undoN {α : Type} (blank : α) : Nat → Store α → Store α
  | 0, st => st
  | n + 1, st => undoN blank n (undo blank st)

/-- `n` repetitions of `redo`. -/
def redoN {α : Type} : Nat → Store α → Store α
  | 0, st => st
  | n + 1, st => redoN n (redo st)

/-- Push a list of snapshots through `saveHistory` (each push captures the
given value as the current buffer). -/
def pushAll {α : Type} (blank : α) (l : List α) : Store α :=
  l.foldl (fun st s => saveHistory { st with buf := s }) (initStore blank)

/-- The store operations reachable from the UI. -/
inductive HOp where
  | snap
  | undoOp
  | redoOp
  | stopOp
deriving DecidableEq

/-- Interpret one operation. -/
def applyOp {α : Type} (blank : α) (st : Store α) : HOp → Store α
  | HOp.snap => saveHistory st
  | HOp.undoOp => undo blank st
  | HOp.redoOp => redo st
  | HOp.stopOp => stopAnimation blank st

/-- Interpret a sequence of operations. -/
def applyOps {α : Type} (blank : α) (st : Store α) (ops : List HOp) : Store α :=
  ops.foldl (applyOp blank) st

/-- A store state reachable from the post-startup state. -/
def Reachable {α : Type} (blank : α) (st : Store α) : Prop :=
  ∃ ops : List HOp, applyOps blank (initStore blank) ops = st

/-- The store invariant that actually holds at every reachable state:
`-1 ≤ index < length`, and the stack is only ever empty with the sentinel
index `-1`. -/
def StoreInv {α : Type} (st : Store α) : Prop :=
  -1 ≤ st.index ∧ st.index < (st.hist.length : Int) ∧ (st.hist = [] → st.index = -1)

/-- The net buffer produced by a list of strokes applied to the blank
buffer. -/
def runS {α : Type} (blank : α) (l : List (α → α)) : α :=
  l.foldl (fun b f => f b) blank

/-- The history stack contents after the strokes `l` (each stroke first
snapshots the buffer as it was before that stroke). -/
def histOf {α : Type} (blank : α) (l : List (α → α)) : List α :=
  blank :: (List.range l.length).map (fun k => runS blank (l.take k))

/-! ## Sprite animator -/

/-- Sprite transform and velocity: position, rotation, velocity and angular
velocity (JS numbers modelled as rationals). -/
structure AnimState where
  x : ℚ
  y : ℚ
  rotation : ℚ
  vx : ℚ
  vy : ℚ
  vr : ℚ
deriving DecidableEq

/-- One frame of `animate`: add the velocity to the position and the angular
velocity to the rotation, then bounce off each wall — x-axis first (left
wall, else right wall), then y-axis (top wall, else bottom wall); a bounce
clamps the position so the sprite edge sits on the wall and negates that
axis's velocity. `bw × bh` is the canvas, `iw × ih` the sprite. -/
def animate (bw bh iw ih : ℚ) (s : AnimState) : AnimState :=
  let x0 := s.x + s.vx
  let y0 := s.y + s.vy
  let rot := s.rotation + s.vr
  let xb : ℚ × ℚ :=
    if x0 - iw / 2 < 0 then (iw / 2, -s.vx)
    else if x0 + iw / 2 > bw then (bw - iw / 2, -s.vx)
    else (x0, s.vx)
  let yb : ℚ × ℚ :=
    if y0 - ih / 2 < 0 then (ih / 2, -s.vy)
    else if y0 + ih / 2 > bh then (bh - ih / 2, -s.vy)
    else (y0, s.vy)
  ⟨xb.1, yb.1, rot, xb.2, yb.2, s.vr⟩

/-- The velocity/angular-velocity draw of `startAnimation`, as a function of
the four `Math.random()` results (in order of evaluation):
`vx = r1*12-6`, `vy = r2*12-6`, `vr = (r3*0.2+0.05) * (r4 > 0.5 ? 1 : -1)`. -/
def startVelocity (r1 r2 r3 r4 : ℚ) : ℚ × ℚ × ℚ :=
  (r1 * 12 - 6, r2 * 12 - 6, (r3 * 0.2 + 0.05) * (if r4 > 0.5 then 1 else -1))

/-- The fixed phrase list of `speakRandom`. -/
def phrases : List String :=
  ["可愛く書いてくれてありがとね！",
   "みんなは今日は何をして遊んだのかな？",
   "どんどんカラフルにしてみよう！",
   "もっとボタンを押すともっと早くなったり遅くなったりするよ",
   "少しでも楽しんでくれると嬉しいな",
   "ああああ目が回るうううううよおおおおお",
   "お絵かきすると楽しいね",
   "ぼよんぼよん、くるくるくる、びゅうんびゅうん"]

/-- Used only as the (never reached) `getD` default. -/
def noPhrase : String := [].asString

/-- `phrases[Math.floor(Math.random() * phrases.length)]`. -/
def pickPhrase (r : ℚ) : String :=
  phrases.getD (Int.toNat ⌊r * (phrases.length : ℚ)⌋) noPhrase

/-- `speakRandom`: if the speech synthesizer is unavailable, return
immediately (no speech, no velocity change); otherwise pick a random phrase
to speak and re-roll the velocity with the same formulas as
`startAnimation`, leaving position and rotation untouched.  The five
`Math.random()` draws are passed in evaluation order: phrase pick, then
`vx`, `vy`, `vr` magnitude, `vr` sign. -/
def speakRandom (synthAvailable : Bool) (r1 r2 r3 r4 r5 : ℚ) (s : AnimState) :
    AnimState × Option String :=
  if synthAvailable then
    ({ s with
        vx := r2 * 12 - 6
        vy := r3 * 12 - 6
        vr := (r4 * 0.2 + 0.05) * (if r5 > 0.5 then 1 else -1) },
     some (pickPhrase r1))
  else (s, none)

/-! ## Theorems -/

/-- C8: if the color at the seed pixel already exactly equals the fill
color, `fillFlood` leaves the entire buffer unchanged. -/
theorem fillFlood_noop (b : Buf) (x y : Int) (fillColor : Color)
    (hseed : getPixelColor b x y = some fillColor) :
    fillFlood b x y fillColor = b := by
  simp [fillFlood, fillFloodWith, hseed]

theorem fillFlood_noop_witness :
    getPixelColor ⟨2, 1, [white, ⟨0, 0, 0, 255⟩]⟩ 0 0 = some white ∧
    fillFlood ⟨2, 1, [white, ⟨0, 0, 0, 255⟩]⟩ 0 0 white = ⟨2, 1, [white, ⟨0, 0, 0, 255⟩]⟩ :=
  ⟨by decide, fillFlood_noop ⟨2, 1, [white, ⟨0, 0, 0, 255⟩]⟩ 0 0 white (by decide)⟩

/-- C2 (counterexample): the state after `stopAnimation` is not the
post-startup initial state — the history stack is emptied rather than
seeded with the blank frame, and the index is `-1` rather than `0`. -/
theorem stopAnimation_cex :
    stopAnimation false (initStore false) ≠ initStore false ∧
    (stopAnimation false (initStore false)).hist = [] ∧
    (initStore false).hist = [false] ∧
    (stopAnimation false (initStore false)).index = -1 ∧
    (initStore false).index = 0 := by decide

/-- C2 (amended): `stopAnimation` clears the buffer to blank (as at
startup) and makes the old drawing unrecoverable (undo and redo are no-ops
afterwards), but it resets the history to the empty stack with sentinel
index `-1`, which differs from the post-startup state whose history is
seeded with the blank frame at index `0`. -/
theorem stopAnimation_spec {α : Type} (blank : α) (st : Store α) :
    (stopAnimation blank st).buf = (initStore blank).buf
  ∧ (stopAnimation blank st).hist = []
  ∧ (stopAnimation blank st).index = -1
  ∧ undo blank (stopAnimation blank st) = stopAnimation blank st
  ∧ redo (stopAnimation blank st) = stopAnimation blank st
  ∧ (stopAnimation blank st).hist ≠ (initStore blank).hist := by
  refine ⟨rfl, rfl, rfl, ?_, ?_, by simp [stopAnimation, initStore]⟩
  · simp [undo, stopAnimation]
  · simp [redo, stopAnimation]

/-- C9: `speakRandom` is a strict no-op when the synthesizer is missing;
otherwise it re-rolls the velocity with exactly the `startAnimation`
formulas (leaving position and rotation unchanged), and those formulas give
`vx, vy ∈ [-6, 6)` and an angular velocity of magnitude in `[0.05, 0.25)`
whose sign is chosen by the last random draw. -/
theorem speakRandom_spec (avail : Bool) (r1 r2 r3 r4 r5 : ℚ) (s : AnimState) :
    (avail = false → speakRandom avail r1 r2 r3 r4 r5 s = (s, none))
  ∧ (avail = true →
      (speakRandom avail r1 r2 r3 r4 r5 s).1.x = s.x
      ∧ (speakRandom avail r1 r2 r3 r4 r5 s).1.y = s.y
      ∧ (speakRandom avail r1 r2 r3 r4 r5 s).1.rotation = s.rotation
      ∧ ((speakRandom avail r1 r2 r3 r4 r5 s).1.vx,
          (speakRandom avail r1 r2 r3 r4 r5 s).1.vy,
          (speakRandom avail r1 r2 r3 r4 r5 s).1.vr) = startVelocity r2 r3 r4 r5)
  ∧ (0 ≤ r2 → r2 < 1 →
      -6 ≤ (speakRandom true r1 r2 r3 r4 r5 s).1.vx
      ∧ (speakRandom true r1 r2 r3 r4 r5 s).1.vx < 6)
  ∧ (0 ≤ r3 → r3 < 1 →
      -6 ≤ (speakRandom true r1 r2 r3 r4 r5 s).1.vy
      ∧ (speakRandom true r1 r2 r3 r4 r5 s).1.vy < 6)
  ∧ (0 ≤ r4 → r4 < 1 →
      1 / 20 ≤ |(speakRandom true r1 r2 r3 r4 r5 s).1.vr|
      ∧ |(speakRandom true r1 r2 r3 r4 r5 s).1.vr| < 1 / 4)
  ∧ (0 ≤ r4 →
      (1 / 2 < r5 → 0 < (speakRandom true r1 r2 r3 r4 r5 s).1.vr)
      ∧ (¬ (1 / 2 < r5) → (speakRandom true r1 r2 r3 r4 r5 s).1.vr < 0)) := by
  have hpos : ∀ r : ℚ, 0 ≤ r → 0 < r * 0.2 + 0.05 := by
    intro r h0
    nlinarith
  refine ⟨?_, ?_, ?_, ?_, ?_, ?_⟩
  · intro hav
    subst hav
    simp [speakRandom]
  · intro hav
    subst hav
    refine ⟨rfl, rfl, rfl, ?_⟩
    simp [speakRandom, startVelocity]
  · intro h0 h1
    constructor <;> simp [speakRandom] <;> nlinarith
  · intro h0 h1
    constructor <;> simp [speakRandom] <;> nlinarith
  · intro h0 h1
    have hvr : (speakRandom true r1 r2 r3 r4 r5 s).1.vr
        = (r4 * 0.2 + 0.05) * (if (0.5 : ℚ) < r5 then 1 else -1) := by
      simp [speakRandom]
    rw [hvr]
    by_cases hs : (0.5 : ℚ) < r5
    · rw [if_pos hs, mul_one, abs_of_pos (hpos r4 h0)]
      constructor <;> nlinarith
    · rw [if_neg hs, show (r4 * 0.2 + 0.05) * (-1 : ℚ) = -(r4 * 0.2 + 0.05) from by ring,
        abs_neg, abs_of_pos (hpos r4 h0)]
      constructor <;> nlinarith
  · intro h0
    have hvr : (speakRandom true r1 r2 r3 r4 r5 s).1.vr
        = (r4 * 0.2 + 0.05) * (if (0.5 : ℚ) < r5 then 1 else -1) := by
      simp [speakRandom]
    have h05 : (0.5 : ℚ) = 1 / 2 := by norm_num
    constructor
    · intro hs
      rw [hvr, if_pos (by rw [h05]; exact hs), mul_one]
      exact hpos r4 h0
    · intro hs
      rw [hvr, if_neg (by rw [h05]; exact hs)]
      nlinarith [hpos r4 h0]

theorem speakRandom_spec_witness :
    speakRandom false 0 0 0 0 0 ⟨1, 2, 3, 4, 5, 6⟩ = (⟨1, 2, 3, 4, 5, 6⟩, none)
  ∧ (speakRandom true 0 (1/2) (1/2) (1/2) (3/4) ⟨1, 2, 3, 4, 5, 6⟩).1.x = 1
  ∧ (1 / 20 : ℚ) ≤ |(speakRandom true 0 (1/2) (1/2) (1/2) (3/4) ⟨1, 2, 3, 4, 5, 6⟩).1.vr|
  ∧ 0 < (speakRandom true 0 (1/2) (1/2) (1/2) (3/4) ⟨1, 2, 3, 4, 5, 6⟩).1.vr := by
  obtain ⟨c1, c2, c3, c4, c5, c6⟩ := speakRandom_spec true 0 (1/2) (1/2) (1/2) (3/4) ⟨1, 2, 3, 4, 5, 6⟩
  obtain ⟨d1, _, _, _, _, _⟩ := speakRandom_spec false 0 0 0 0 0 ⟨1, 2, 3, 4, 5, 6⟩
  exact ⟨d1 rfl, (c2 rfl).1, (c5 (by norm_num) (by norm_num)).1,
    (c6 (by norm_num)).1 (by norm_num)⟩

/-- C4: in each frame, after position gains velocity, each axis is checked
in the fixed order x then y; a leading edge crossing the wall clamps the
position so the edge sits exactly on that wall and negates that axis's
velocity; otherwise the axis keeps its position and velocity; the rotation
always advances by the (unchanged) angular velocity. -/
theorem animate_spec (bw bh iw ih : ℚ) (s : AnimState) :
    ((s.x + s.vx) - iw / 2 < 0 →
        (animate bw bh iw ih s).x - iw / 2 = 0 ∧ (animate bw bh iw ih s).vx = -s.vx)
  ∧ (¬ ((s.x + s.vx) - iw / 2 < 0) → (s.x + s.vx) + iw / 2 > bw →
        (animate bw bh iw ih s).x + iw / 2 = bw ∧ (animate bw bh iw ih s).vx = -s.vx)
  ∧ (¬ ((s.x + s.vx) - iw / 2 < 0) → ¬ ((s.x + s.vx) + iw / 2 > bw) →
        (animate bw bh iw ih s).x = s.x + s.vx ∧ (animate bw bh iw ih s).vx = s.vx)
  ∧ ((s.y + s.vy) - ih / 2 < 0 →
        (animate bw bh iw ih s).y - ih / 2 = 0 ∧ (animate bw bh iw ih s).vy = -s.vy)
  ∧ (¬ ((s.y + s.vy) - ih / 2 < 0) → (s.y + s.vy) + ih / 2 > bh →
        (animate bw bh iw ih s).y + ih / 2 = bh ∧ (animate bw bh iw ih s).vy = -s.vy)
  ∧ (¬ ((s.y + s.vy) - ih / 2 < 0) → ¬ ((s.y + s.vy) + ih / 2 > bh) →
        (animate bw bh iw ih s).y = s.y + s.vy ∧ (animate bw bh iw ih s).vy = s.vy)
  ∧ (animate bw bh iw ih s).rotation = s.rotation + s.vr
  ∧ (animate bw bh iw ih s).vr = s.vr := by
  simp only [animate]
  split_ifs with h1 h2 h3 h4 <;>
    refine ⟨?_, ?_, ?_, ?_, ?_, ?_, ?_, ?_⟩ <;>
    intros <;> simp_all

theorem animate_spec_witness :
    ((animate 600 400 100 80 ⟨40, 200, 0, -10, 1, 5⟩).x - 100 / 2 = 0
      ∧ (animate 600 400 100 80 ⟨40, 200, 0, -10, 1, 5⟩).vx = -(-10))
  ∧ ((animate 600 400 100 80 ⟨40, 200, 0, -10, 1, 5⟩).y = 200 + 1
      ∧ (animate 600 400 100 80 ⟨40, 200, 0, -10, 1, 5⟩).vy = 1)
  ∧ ((animate 600 400 100 80 ⟨580, 390, 0, 10, 20, 1⟩).x + 100 / 2 = 600
      ∧ (animate 600 400 100 80 ⟨580, 390, 0, 10, 20, 1⟩).vx = -10)
  ∧ ((animate 600 400 100 80 ⟨580, 390, 0, 10, 20, 1⟩).y + 80 / 2 = 400
      ∧ (animate 600 400 100 80 ⟨580, 390, 0, 10, 20, 1⟩).vy = -20)
  ∧ ((animate 600 400 100 80 ⟨300, 50, 0, 0, -20, 1⟩).x = 300 + 0
      ∧ (animate 600 400 100 80 ⟨300, 50, 0, 0, -20, 1⟩).y - 80 / 2 = 0)
  ∧ (animate 600 400 100 80 ⟨300, 50, 0, 0, -20, 1⟩).rotation = 0 + 1 := by
  obtain ⟨a1, _, _, _, _, a6, _, _⟩ := animate_spec 600 400 100 80 ⟨40, 200, 0, -10, 1, 5⟩
  obtain ⟨_, b2, _, _, b5, _, _, _⟩ := animate_spec 600 400 100 80 ⟨580, 390, 0, 10, 20, 1⟩
  obtain ⟨_, _, c3, c4, _, _, c7, _⟩ := animate_spec 600 400 100 80 ⟨300, 50, 0, 0, -20, 1⟩
  refine ⟨a1 (by norm_num), ?_, b2 (by norm_num) (by norm_num),
    b5 (by norm_num) (by norm_num), ⟨(c3 (by norm_num) (by norm_num)).1,
      (c4 (by norm_num)).1⟩, ?_⟩
  · have := a6 (by norm_num) (by norm_num)
    exact ⟨this.1, this.2⟩
  · have hvx : (animate 600 400 100 80 ⟨580, 390, 0, 10, 20, 1⟩).vx = -10 := (b2 (by norm_num) (by norm_num)).2
    exact c7

/-! ## Store invariant lemmas -/

theorem storeInv_init {α : Type} (blank : α) : StoreInv (initStore blank) :=
  ⟨by norm_num [initStore], by norm_num [initStore], fun he => absurd he (by simp [initStore])⟩

/-- `saveHistory` builds a stack of length `(index + 1).toNat + 1` before
deciding whether to drop the oldest entry. -/
theorem saveHistory_shape {α : Type} (st : Store α) (h1 : -1 ≤ st.index)
    (h2 : st.index < (st.hist.length : Int)) :
    ∃ stack1 : List α,
      stack1.length = (st.index + 1).toNat + 1 ∧
      saveHistory st =
        if 20 < stack1.length then { st with hist := stack1.drop 1 }
        else { st with hist := stack1, index := st.index + 1 } := by
  simp only [saveHistory, jsSliceTo]
  by_cases ht : st.index < (st.hist.length : Int) - 1
  · rw [if_pos ht, if_neg (show ¬ (st.index + 1 < 0) by omega)]
    refine ⟨_, ?_, rfl⟩
    simp only [List.length_append, List.length_take, List.length_singleton]
    omega
  · rw [if_neg ht]
    refine ⟨_, ?_, rfl⟩
    simp only [List.length_append, List.length_singleton]
    omega

theorem storeInv_saveHistory {α : Type} (st : Store α) (h : StoreInv st) :
    StoreInv (saveHistory st) := by
  obtain ⟨h1, h2, h3⟩ := h
  obtain ⟨stack1, hlen, heq⟩ := saveHistory_shape st h1 h2
  rw [heq]
  split_ifs with h20
  · refine ⟨h1, ?_, ?_⟩
    · show st.index < ((stack1.drop 1).length : Int)
      simp only [List.length_drop]
      omega
    · intro he
      have he' : stack1.drop 1 = [] := he
      have hl0 : (stack1.drop 1).length = 0 := by rw [he']; rfl
      simp only [List.length_drop] at hl0
      show st.index = -1
      omega
  · refine ⟨?_, ?_, ?_⟩
    · show (-1 : Int) ≤ st.index + 1
      omega
    · show st.index + 1 < (stack1.length : Int)
      omega
    · intro he
      have he' : stack1 = [] := he
      have hl0 : stack1.length = 0 := by rw [he']; rfl
      show st.index + 1 = -1
      omega

theorem storeInv_applyOp {α : Type} (blank : α) (st : Store α) (op : HOp)
    (h : StoreInv st) : StoreInv (applyOp blank st op) := by
  obtain ⟨h1, h2, h3⟩ := h
  cases op with
  | snap => exact storeInv_saveHistory st ⟨h1, h2, h3⟩
  | undoOp =>
    simp only [applyOp, undo]
    split_ifs with hle
    · refine ⟨?_, ?_, fun _ => rfl⟩
      · show (-1 : Int) ≤ -1
        omega
      · show (-1 : Int) < (st.hist.length : Int)
        omega
    · refine ⟨?_, ?_, ?_⟩
      · show (-1 : Int) ≤ st.index - 1
        omega
      · show st.index - 1 < (st.hist.length : Int)
        omega
      · intro he
        have he' : st.hist = [] := he
        have := h3 he'
        show st.index - 1 = -1
        omega
  | redoOp =>
    simp only [applyOp, redo]
    split_ifs with hge
    · exact ⟨h1, h2, h3⟩
    · refine ⟨?_, ?_, ?_⟩
      · show (-1 : Int) ≤ st.index + 1
        omega
      · show st.index + 1 < (st.hist.length : Int)
        omega
      · intro he
        have he' : st.hist = [] := he
        have h0 : st.hist.length = 0 := by rw [he']; rfl
        show st.index + 1 = -1
        omega
  | stopOp =>
    refine ⟨?_, ?_, fun _ => rfl⟩
    · show (-1 : Int) ≤ -1
      omega
    · show (-1 : Int) < (([] : List α).length : Int)
      norm_num

theorem storeInv_applyOps {α : Type} (blank : α) (ops : List HOp) :
    ∀ st : Store α, StoreInv st → StoreInv (applyOps blank st ops) := by
  induction ops with
  | nil => exact fun st h => h
  | cons op ops ih =>
    intro st h
    exact ih (applyOp blank st op) (storeInv_applyOp blank st op h)

/-- C6 (counterexample): a single `undo` from the seeded initial state is a
reachable state with a non-empty history stack and index `-1`, so
`0 ≤ index` does not hold at every reachable state with a non-empty
stack. -/
theorem history_index_cex :
    (applyOps false (initStore false) [HOp.undoOp]).hist ≠ []
  ∧ ¬ (0 ≤ (applyOps false (initStore false) [HOp.undoOp]).index) := by decide

/-- C6 (amended): after any sequence of snapshot, undo and redo operations
from the seeded initial state, the invariant `-1 ≤ index < length` holds
(the lower bound is `-1`, the blank sentinel, not `0`). -/
theorem history_index_invariant {α : Type} (blank : α) (ops : List HOp)
    (_hops : ∀ o ∈ ops, o ≠ HOp.stopOp) :
    -1 ≤ (applyOps blank (initStore blank) ops).index
  ∧ (applyOps blank (initStore blank) ops).index
      < ((applyOps blank (initStore blank) ops).hist.length : Int) := by
  have h := storeInv_applyOps blank ops (initStore blank) (storeInv_init blank)
  exact ⟨h.1, h.2.1⟩

theorem history_index_invariant_witness :
    -1 ≤ (applyOps false (initStore false) [HOp.undoOp, HOp.snap, HOp.redoOp]).index
  ∧ (applyOps false (initStore false) [HOp.undoOp, HOp.snap, HOp.redoOp]).index
      < ((applyOps false (initStore false) [HOp.undoOp, HOp.snap, HOp.redoOp]).hist.length : Int) :=
  history_index_invariant false [HOp.undoOp, HOp.snap, HOp.redoOp] (by decide)

/-- C7: `undo` at index ≤ 0 resets the buffer to blank with sentinel index
`-1` and is idempotent there; at a positive in-range index it decrements
the index and restores that snapshot's contents; and every reachable state
with an empty stack has index ≤ 0 (so the reset branch also covers the
empty-stack case). -/
theorem undo_spec {α : Type} (blank : α) (st : Store α) :
    (st.index ≤ 0 →
        undo blank st = { st with buf := blank, index := -1 }
        ∧ undo blank (undo blank st) = undo blank st)
  ∧ (0 < st.index → st.index < (st.hist.length : Int) →
        (undo blank st).index = st.index - 1
        ∧ (undo blank st).hist = st.hist
        ∧ st.hist.get? (st.index - 1).toNat = some ((undo blank st).buf))
  ∧ (Reachable blank st → st.hist = [] → st.index ≤ 0) := by
  refine ⟨?_, ?_, ?_⟩
  · intro hle
    have he : undo blank st = { st with buf := blank, index := -1 } := by
      unfold undo
      rw [if_pos hle]
    refine ⟨he, ?_⟩
    rw [he]
    unfold undo
    rw [if_pos (by norm_num)]
  · intro h0 hlen
    have hne : ¬ st.index ≤ 0 := by omega
    have hlt : (st.index - 1).toNat < st.hist.length := by omega
    unfold undo
    rw [if_neg hne]
    have hg := List.get?_eq_get hlt
    refine ⟨rfl, rfl, ?_⟩
    show st.hist.get? (st.index - 1).toNat
      = some (match st.hist.get? (st.index - 1).toNat with
              | some d => d
              | none => st.buf)
    rw [hg]
  · intro hr he
    obtain ⟨ops, hops⟩ := hr
    have h := storeInv_applyOps blank ops (initStore blank) (storeInv_init blank)
    rw [hops] at h
    have := h.2.2 he
    omega

theorem undo_spec_witness :
    undo false (initStore false) = { initStore false with buf := false, index := -1 }
  ∧ undo false (undo false (initStore false)) = undo false (initStore false)
  ∧ (undo false (⟨true, [false, true], 1⟩ : Store Bool)).index = 1 - 1
  ∧ (undo false (⟨true, [false, true], 1⟩ : Store Bool)).hist = [false, true]
  ∧ [false, true].get? ((1 : Int) - 1).toNat
      = some ((undo false (⟨true, [false, true], 1⟩ : Store Bool)).buf)
  ∧ (applyOps false (initStore false) [HOp.stopOp]).index ≤ 0 := by
  obtain ⟨a1, _, _⟩ := undo_spec false (initStore false)
  obtain ⟨_, b2, _⟩ := undo_spec false (⟨true, [false, true], 1⟩ : Store Bool)
  obtain ⟨_, _, c3⟩ := undo_spec false (applyOps false (initStore false) [HOp.stopOp])
  have ha := a1 (by norm_num [initStore])
  have hb := b2 (by norm_num) (by norm_num)
  exact ⟨ha.1, ha.2, hb.1, hb.2.1, hb.2.2, c3 ⟨[HOp.stopOp], rfl⟩ (by decide)⟩

/-! ## History bound (C5) -/

theorem getD_of_lt {α : Type} (l : List α) (i : Nat) (d : α) (h : i < l.length) :
    l.get? i = some (l.getD i d) := by
  rw [List.get?_eq_getElem?, List.getElem?_eq_getElem h, List.getD_eq_getElem?_getD,
    List.getElem?_eq_getElem h]
  rfl

theorem getD_drop {α : Type} (l : List α) (m i : Nat) (d : α) :
    (l.drop m).getD i d = l.getD (m + i) d := by
  rw [List.getD_eq_getElem?_getD, List.getD_eq_getElem?_getD, List.getElem?_drop]

theorem getD_concat_length {α : Type} (l : List α) (a d : α) :
    (l ++ [a]).getD l.length d = a := by
  rw [List.getD_eq_getElem?_getD, List.getElem?_concat_length]
  rfl

theorem pushAll_concat {α : Type} (blank : α) (l : List α) (s : α) :
    pushAll blank (l ++ [s]) = saveHistory { pushAll blank l with buf := s } := by
  simp [pushAll, List.foldl_append]

/-- Under the store invariant bounds, `saveHistory` first builds
`take (index+1) of the stack ++ [current buffer]` and then either drops the
oldest entry (if that exceeds 20) or advances the index. -/
theorem saveHistory_eq {α : Type} (st : Store α) (h1 : -1 ≤ st.index)
    (h2 : st.index < (st.hist.length : Int)) :
    saveHistory st =
      if 20 < (st.hist.take (st.index + 1).toNat).length + 1 then
        { st with hist := (st.hist.take (st.index + 1).toNat ++ [st.buf]).drop 1 }
      else
        { st with hist := st.hist.take (st.index + 1).toNat ++ [st.buf],
                  index := st.index + 1 } := by
  simp only [saveHistory, jsSliceTo]
  by_cases ht : st.index < (st.hist.length : Int) - 1
  · rw [if_pos ht, if_neg (show ¬ (st.index + 1 < 0) by omega)]
    simp only [List.length_append, List.length_singleton]
  · rw [if_neg ht, show st.hist.take (st.index + 1).toNat = st.hist from
      List.take_of_length_le (by omega)]
    simp only [List.length_append, List.length_singleton]

/-- Closed form of a pure sequence of snapshot pushes from the seeded
initial state: the stack holds the last 20 of `blank :: l` and the index
points at the most recent entry. -/
theorem pushAll_eq {α : Type} (blank : α) (l : List α) :
    pushAll blank l =
      ⟨(blank :: l).getD l.length blank,
       (blank :: l).drop (l.length + 1 - 20),
       ((min l.length 19 : Nat) : Int)⟩ := by
  induction l using List.reverseRecOn with
  | nil => rfl
  | append_singleton l s ih =>
    have hbuf : (blank :: (l ++ [s])).getD (l ++ [s]).length blank = s := by
      rw [← List.cons_append, show (l ++ [s]).length = (blank :: l).length by simp]
      exact getD_concat_length (blank :: l) s blank
    rw [pushAll_concat, ih]
    set n := l.length with hnn
    have hD : ((blank :: l).drop (n + 1 - 20)).length = min (n + 1) 20 := by
      simp only [List.length_drop, List.length_cons]
      omega
    show saveHistory ⟨s, (blank :: l).drop (n + 1 - 20), ((min n 19 : Nat) : Int)⟩ = _
    rw [saveHistory_eq ⟨s, (blank :: l).drop (n + 1 - 20), ((min n 19 : Nat) : Int)⟩
      (show (-1 : Int) ≤ ((min n 19 : Nat) : Int) by omega)
      (show ((min n 19 : Nat) : Int) < (((blank :: l).drop (n + 1 - 20)).length : Int) by
        rw [hD]; push_cast; omega)]
    rw [show ((((min n 19 : Nat) : Int)) + 1).toNat = min n 19 + 1 by omega]
    rw [show ((blank :: l).drop (n + 1 - 20)).take (min n 19 + 1) = (blank :: l).drop (n + 1 - 20)
      from List.take_of_length_le (by rw [hD]; omega)]
    rw [hD]
    have e3 : (l ++ [s]).length = n + 1 := by simp
    rw [e3] at hbuf ⊢
    by_cases h19 : n ≤ 18
    · rw [if_neg (by omega)]
      simp only [Store.mk.injEq]
      refine ⟨hbuf.symm, ?_, by omega⟩
      rw [show n + 1 - 20 = 0 by omega, show n + 1 + 1 - 20 = 0 by omega,
        List.drop_zero, List.drop_zero, List.cons_append]
    · rw [if_pos (by omega)]
      simp only [Store.mk.injEq]
      refine ⟨hbuf.symm, ?_, by omega⟩
      rw [List.drop_append_of_le_length (by rw [hD]; omega), List.drop_drop,
        ← List.cons_append,
        List.drop_append_of_le_length (by simp only [List.length_cons]; omega),
        show n + 1 - 20 + 1 = n + 1 + 1 - 20 by omega]

/-- Iterated `undo` from a store whose index is `j < length`: `k ≥ 1` undos
land on the snapshot `k` below the index, for any current buffer. -/
theorem undoN_buf {α : Type} (blank : α) (stack : List α) :
    ∀ (k j : Nat) (b : α), 1 ≤ k → k ≤ j → j < stack.length →
      undoN blank k ⟨b, stack, (j : Int)⟩
        = ⟨stack.getD (j - k) blank, stack, ((j - k : Nat) : Int)⟩ := by
  intro k
  induction k with
  | zero => omega
  | succ k ih =>
    intro j b _hk1 hkj hj
    have hj1 : 1 ≤ j := by omega
    have hstep : undo blank ⟨b, stack, (j : Int)⟩
        = ⟨stack.getD (j - 1) blank, stack, ((j - 1 : Nat) : Int)⟩ := by
      unfold undo
      rw [if_neg (show ¬ ((j : Int) ≤ 0) by omega)]
      show (⟨match stack.get? ((j : Int) - 1).toNat with
              | some d => d
              | none => b, stack, (j : Int) - 1⟩ : Store α) = _
      rw [show ((j : Int) - 1).toNat = j - 1 by omega,
        getD_of_lt stack (j - 1) blank (by omega),
        show (j : Int) - 1 = ((j - 1 : Nat) : Int) by omega]
    show undoN blank k (undo blank ⟨b, stack, (j : Int)⟩) = _
    rw [hstep]
    cases Nat.eq_zero_or_pos k with
    | inl h0 =>
      subst h0
      rfl
    | inr hpos =>
      rw [ih (j - 1) _ hpos (by omega) (by omega)]
      rw [show j - 1 - k = j - (k + 1) by omega]

/-- C5: after any sequence of snapshot pushes from the seeded initial
state, the stack never exceeds 20 entries and holds exactly the most
recent 20 snapshots (the oldest entries having been dropped), the index
points at the most recent snapshot, and `k ≤ 19` undos reach the `k`-th
most recent snapshot. -/
theorem saveHistory_bound {α : Type} (blank : α) (l : List α) :
    (pushAll blank l).hist.length ≤ 20
  ∧ (pushAll blank l).hist = (blank :: l).drop (l.length + 1 - 20)
  ∧ (pushAll blank l).index = ((min l.length 19 : Nat) : Int)
  ∧ (∀ k : Nat, k ≤ min l.length 19 →
      (undoN blank k (pushAll blank l)).buf = (blank :: l).getD (l.length - k) blank) := by
  rw [pushAll_eq]
  have hlen : ((blank :: l).drop (l.length + 1 - 20)).length = min (l.length + 1) 20 := by
    simp only [List.length_drop, List.length_cons]
    omega
  refine ⟨by rw [hlen]; omega, rfl, rfl, ?_⟩
  intro k hk
  cases Nat.eq_zero_or_pos k with
  | inl h0 =>
    subst h0
    show (blank :: l).getD l.length blank = (blank :: l).getD (l.length - 0) blank
    rfl
  | inr hpos =>
    rw [undoN_buf blank _ k (min l.length 19) _ hpos hk (by rw [hlen]; omega)]
    show ((blank :: l).drop (l.length + 1 - 20)).getD (min l.length 19 - k) blank
      = (blank :: l).getD (l.length - k) blank
    rw [getD_drop, show l.length + 1 - 20 + (min l.length 19 - k) = l.length - k by omega]

theorem saveHistory_bound_witness :
    (pushAll 0 [1, 2, 3]).hist.length ≤ 20
  ∧ (pushAll 0 [1, 2, 3]).hist = ([0, 1, 2, 3] : List Nat).drop (3 + 1 - 20)
  ∧ (pushAll 0 [1, 2, 3]).index = ((min 3 19 : Nat) : Int)
  ∧ (undoN 0 2 (pushAll 0 [1, 2, 3])).buf = ([0, 1, 2, 3] : List Nat).getD (3 - 2) 0 := by
  obtain ⟨h1, h2, h3, h4⟩ := saveHistory_bound 0 [1, 2, 3]
  exact ⟨h1, h2, h3, h4 2 (by norm_num)⟩

/-! ## Undo/redo round trip (C1) -/

theorem runS_concat {α : Type} (blank : α) (l : List (α → α)) (f : α → α) :
    runS blank (l ++ [f]) = f (runS blank l) := by
  simp [runS, List.foldl_append]

theorem strokes_concat {α : Type} (blank : α) (l : List (α → α)) (f : α → α) :
    strokes blank (l ++ [f]) = strokeOp (strokes blank l) f := by
  simp [strokes, List.foldl_append]

theorem histOf_length {α : Type} (blank : α) (l : List (α → α)) :
    (histOf blank l).length = l.length + 1 := by
  simp [histOf]

/-- Closed form of a stroke sequence of length ≤ 19 from the post-startup
state: the history holds the snapshots taken at the start of each stroke
(so the buffer after the last stroke is not on the stack), the index sits
at the top, and the buffer holds the net result of all strokes. -/
theorem strokes_eq {α : Type} (blank : α) (l : List (α → α)) (h19 : l.length ≤ 19) :
    strokes blank l = ⟨runS blank l, histOf blank l, (l.length : Int)⟩ := by
  induction l using List.reverseRecOn with
  | nil => rfl
  | append_singleton l f ih =>
    have hn : l.length ≤ 18 := by
      simp only [List.length_append, List.length_singleton] at h19
      omega
    rw [strokes_concat, ih (by omega)]
    show { saveHistory ⟨runS blank l, histOf blank l, (l.length : Int)⟩ with
            buf := f (saveHistory ⟨runS blank l, histOf blank l, (l.length : Int)⟩).buf } = _
    rw [saveHistory_eq ⟨runS blank l, histOf blank l, (l.length : Int)⟩
      (by show (-1 : Int) ≤ (l.length : Int); omega)
      (by show (l.length : Int) < ((histOf blank l).length : Int); rw [histOf_length]; push_cast; omega)]
    rw [show (((l.length : Nat) : Int) + 1).toNat = l.length + 1 by omega]
    rw [show (histOf blank l).take (l.length + 1) = histOf blank l from
      List.take_of_length_le (by rw [histOf_length])]
    rw [if_neg (by rw [histOf_length]; omega)]
    simp only [Store.mk.injEq]
    refine ⟨(runS_concat blank l f).symm, ?_,
      by push_cast [List.length_append, List.length_singleton]; omega⟩
    show histOf blank l ++ [runS blank l] = histOf blank (l ++ [f])
    simp only [histOf, List.length_append, List.length_singleton, List.range_succ,
      List.map_append, List.map_cons, List.map_nil, ← List.cons_append]
    congr 1
    · congr 1
      apply List.map_congr_left
      intro k hk
      rw [List.take_append_of_le_length (le_of_lt (List.mem_range.mp hk))]
    · rw [List.take_append_of_le_length le_rfl, List.take_length]

/-- Iterated `redo` from a store whose index is `j` with `j + k` at most the
top of the stack: `k ≥ 1` redos land on the snapshot `k` above the index. -/
theorem redoN_buf {α : Type} (stack : List α) (d : α) :
    ∀ (k j : Nat) (b : α), 1 ≤ k → j + k ≤ stack.length - 1 →
      redoN k ⟨b, stack, (j : Int)⟩
        = ⟨stack.getD (j + k) d, stack, ((j + k : Nat) : Int)⟩ := by
  intro k
  induction k with
  | zero => omega
  | succ k ih =>
    intro j b _hk1 hkj
    have hlen : j + 1 < stack.length := by omega
    have hstep : redo ⟨b, stack, (j : Int)⟩
        = ⟨stack.getD (j + 1) d, stack, ((j + 1 : Nat) : Int)⟩ := by
      unfold redo
      rw [if_neg (show ¬ ((stack.length : Int) - 1 ≤ (j : Int)) by omega)]
      show (⟨match stack.get? ((j : Int) + 1).toNat with
              | some x => x
              | none => b, stack, (j : Int) + 1⟩ : Store α) = _
      rw [show ((j : Int) + 1).toNat = j + 1 by omega,
        getD_of_lt stack (j + 1) d hlen,
        show (j : Int) + 1 = ((j + 1 : Nat) : Int) by omega]
    show redoN k (redo ⟨b, stack, (j : Int)⟩) = _
    rw [hstep]
    cases Nat.eq_zero_or_pos k with
    | inl h0 =>
      subst h0
      rfl
    | inr hpos =>
      rw [ih (j + 1) _ hpos (by omega)]
      rw [show j + 1 + k = j + (k + 1) by omega]

/-- C1 (counterexample): one stroke that blackens the buffer, then one
undo (which does restore blank) and one redo: the redo yields the snapshot
taken at the start of the stroke — still blank — not the buffer as it was
after the stroke. -/
theorem undo_redo_cex :
    (strokes false [fun _ => true]).buf = true
  ∧ (undoN false 1 (strokes false [fun _ => true])).buf = false
  ∧ (redoN 1 (undoN false 1 (strokes false [fun _ => true]))).buf = false := by decide

/-- C1 (amended): for `1 ≤ N ≤ 19` strokes from the blank initial state,
undoing `N` times restores the blank buffer, and redoing `N` times then
yields the buffer as it was *before* the `N`-th stroke (after the first
`N - 1` strokes) — the post-stroke buffer is never pushed, so the state
after the `N`-th stroke is not what redo reproduces. -/
theorem undo_redo_roundtrip {α : Type} (blank : α) (l : List (α → α))
    (h1 : 1 ≤ l.length) (h19 : l.length ≤ 19) :
    (undoN blank l.length (strokes blank l)).buf = blank
  ∧ (redoN l.length (undoN blank l.length (strokes blank l))).buf
      = runS blank (l.take (l.length - 1)) := by
  rw [strokes_eq blank l h19]
  have hu := undoN_buf blank (histOf blank l) l.length l.length (runS blank l) h1 le_rfl
    (by rw [histOf_length]; omega)
  rw [Nat.sub_self] at hu
  rw [hu]
  constructor
  · rfl
  · have hr := redoN_buf (histOf blank l) blank l.length 0 ((histOf blank l).getD 0 blank) h1
      (by rw [histOf_length]; omega)
    rw [hr]
    show (histOf blank l).getD (0 + l.length) blank = _
    rw [Nat.zero_add]
    simp only [histOf]
    obtain ⟨m, hm⟩ : ∃ m, l.length = m + 1 := ⟨l.length - 1, by omega⟩
    rw [hm]
    rw [List.getD_cons_succ, List.getD_eq_getElem?_getD, List.getElem?_map,
      List.getElem?_range (by omega)]
    show runS blank (l.take m) = runS blank (l.take (m + 1 - 1))
    rw [Nat.add_sub_cancel]

theorem undo_redo_roundtrip_witness :
    (undoN false 1 (strokes false [fun _ => true])).buf = false
  ∧ (redoN 1 (undoN false 1 (strokes false [fun _ => true]))).buf
      = runS false (([fun _ => true] : List (Bool → Bool)).take (1 - 1)) := by
  have h := undo_redo_roundtrip false [fun _ => true] (by norm_num) (by norm_num)
  exact ⟨h.1, h.2⟩

/-! ## Flood fill: basic helpers -/

theorem nbrs_symm {p q : Int × Int} (hq : q ∈ nbrs p) : p ∈ nbrs q := by
  simp only [nbrs, List.mem_cons, List.mem_singleton, List.not_mem_nil, or_false] at hq ⊢
  rcases hq with rfl | rfl | rfl | rfl
  · right
    left
    show p = (p.1 - 1 + 1, p.2)
    have : p.1 - 1 + 1 = p.1 := by omega
    rw [this]
  · left
    show p = (p.1 + 1 - 1, p.2)
    have : p.1 + 1 - 1 = p.1 := by omega
    rw [this]
  · right
    right
    right
    show p = (p.1, p.2 - 1 + 1)
    have : p.2 - 1 + 1 = p.2 := by omega
    rw [this]
  · right
    right
    left
    show p = (p.1, p.2 + 1 - 1)
    have : p.2 + 1 - 1 = p.2 := by omega
    rw [this]

theorem not_skip_iff {w h : Nat} {c : Int × Int} :
    ¬ (c.1 < 0 ∨ (w : Int) ≤ c.1 ∨ c.2 < 0 ∨ (h : Int) ≤ c.2) ↔ InB w h c := by
  unfold InB
  omega

theorem flatIdx_cast {w h : Nat} {p : Int × Int} (hp : InB w h p) :
    ((flatIdx w p : Nat) : Int) = p.2 * (w : Int) + p.1 := by
  obtain ⟨h1, _h2, h3, _h4⟩ := hp
  have hw : (0 : Int) ≤ (w : Int) := Int.natCast_nonneg w
  have hnn : 0 ≤ p.2 * (w : Int) + p.1 := by
    have := mul_nonneg h3 hw
    omega
  exact Int.toNat_of_nonneg hnn

theorem flatIdx_lt {w h : Nat} {p : Int × Int} (hp : InB w h p) : flatIdx w p < w * h := by
  have hc := flatIdx_cast hp
  obtain ⟨h1, h2, h3, h4⟩ := hp
  have hmul : (p.2 + 1) * (w : Int) ≤ (h : Int) * (w : Int) :=
    mul_le_mul_of_nonneg_right (by omega) (Int.natCast_nonneg w)
  have hlt : ((flatIdx w p : Nat) : Int) < ((w * h : Nat) : Int) := by
    rw [hc]
    push_cast
    nlinarith
  exact_mod_cast hlt

theorem flatIdx_inj {w h : Nat} {p q : Int × Int} (hp : InB w h p) (hq : InB w h q)
    (he : flatIdx w p = flatIdx w q) : p = q := by
  have hcp := flatIdx_cast hp
  have hcq := flatIdx_cast hq
  have heq : p.2 * (w : Int) + p.1 = q.2 * (w : Int) + q.1 := by
    rw [← hcp, ← hcq, he]
  obtain ⟨hp1, hp2, hp3, hp4⟩ := hp
  obtain ⟨hq1, hq2, hq3, hq4⟩ := hq
  have h2 : p.2 = q.2 := by
    rcases lt_trichotomy p.2 q.2 with hlt | heq2 | hgt
    · exfalso
      have hs : (p.2 + 1) * (w : Int) ≤ q.2 * (w : Int) :=
        mul_le_mul_of_nonneg_right (by omega) (Int.natCast_nonneg w)
      nlinarith
    · exact heq2
    · exfalso
      have hs : (q.2 + 1) * (w : Int) ≤ p.2 * (w : Int) :=
        mul_le_mul_of_nonneg_right (by omega) (Int.natCast_nonneg w)
      nlinarith
  have h1 : p.1 = q.1 := by
    rw [h2] at heq
    exact add_left_cancel heq
  exact Prod.ext h1 h2

theorem colAt_set_self {w h : Nat} {d : List Color} {c : Int × Int} (hc : InB w h c)
    (hlen : d.length = w * h) (x : Color) :
    colAt w (d.set (flatIdx w c) x) c = x := by
  have hi : flatIdx w c < d.length := by
    rw [hlen]
    exact flatIdx_lt hc
  simp only [colAt, List.getD_eq_getElem?_getD]
  rw [List.getElem?_set_self hi]
  rfl

theorem colAt_set_other {w : Nat} (d : List Color) (i : Nat) (x : Color) (p : Int × Int)
    (hne : i ≠ flatIdx w p) :
    colAt w (d.set i x) p = colAt w d p := by
  simp only [colAt, List.getD_eq_getElem?_getD]
  rw [List.getElem?_set_ne hne]

theorem matchCount_set {d : List Color} {i : Nat} (hi : i < d.length)
    {target fillC : Color} (hdi : d.getD i ⟨0, 0, 0, 0⟩ = target) (hne : target ≠ fillC) :
    matchCount (some target) (d.set i fillC) + 1 = matchCount (some target) d := by
  have hget : d[i] = target := by
    rw [← hdi, List.getD_eq_getElem?_getD, List.getElem?_eq_getElem hi]
    rfl
  have hpos : 0 < matchCount (some target) d := by
    apply List.countP_pos_iff.mpr
    refine ⟨d[i], List.getElem_mem hi, ?_⟩
    rw [hget]
    simp
  unfold matchCount at hpos ⊢
  rw [List.countP_set _ _ _ _ hi, hget]
  rw [if_pos (by simp), if_neg (by simp [Ne.symm hne])]
  omega

theorem matchCount_le {targetOpt : Option Color} {d : List Color} :
    matchCount targetOpt d ≤ d.length :=
  List.countP_le_length _

/-! ## Flood fill: closure and path lemmas -/

theorem closureP_matches {w h : Nat} {d0 : List Color} {target : Color} {seed : Int × Int}
    (hM : MatchesIn w h d0 target seed) {p : Int × Int}
    (hp : ClosureP w h d0 target seed p) : MatchesIn w h d0 target p := by
  unfold ClosureP PathIn at hp
  induction hp with
  | refl => exact hM
  | tail _hab hstep _ih => exact hstep.2

theorem closureP_refl {w h : Nat} {d0 : List Color} {target : Color} {seed : Int × Int} :
    ClosureP w h d0 target seed seed :=
  Relation.ReflTransGen.refl

theorem closureP_tail {w h : Nat} {d0 : List Color} {target : Color} {seed r c : Int × Int}
    (hr : ClosureP w h d0 target seed r) (hc : c ∈ nbrs r)
    (hm : MatchesIn w h d0 target c) : ClosureP w h d0 target seed c :=
  Relation.ReflTransGen.tail hr ⟨hc, hm⟩

theorem pathIn_mono {S T : Int × Int → Prop} (hST : ∀ x, S x → T x) {a b : Int × Int}
    (hp : PathIn S a b) : PathIn T a b := by
  unfold PathIn at hp ⊢
  induction hp with
  | refl => exact Relation.ReflTransGen.refl
  | tail _hab hstep ih => exact ih.tail ⟨hstep.1, hST _ hstep.2⟩

theorem closureP_path {w h : Nat} {d0 : List Color} {target : Color} {seed : Int × Int}
    (_hM : MatchesIn w h d0 target seed) {p : Int × Int}
    (hp : ClosureP w h d0 target seed p) :
    PathIn (fun x => ClosureP w h d0 target seed x) seed p := by
  unfold ClosureP PathIn at hp ⊢
  induction hp with
  | refl => exact Relation.ReflTransGen.refl
  | tail hab hstep ih => exact ih.tail ⟨hstep.1, hab.tail hstep⟩

/-- Path surgery: a path through `S` that ends away from `c` can be
rerouted to avoid `c` entirely — either the whole path already avoids `c`,
or the suffix after the last visit of `c` starts at a neighbour of `c`. -/
theorem pathIn_avoid (S : Int × Int → Prop) (c : Int × Int) {a b : Int × Int}
    (hp : PathIn S a b) :
    b ≠ c →
    ((a ≠ c ∧ PathIn (fun x => S x ∧ x ≠ c) a b)
     ∨ (∃ n, n ∈ nbrs c ∧ (S n ∧ n ≠ c) ∧ PathIn (fun x => S x ∧ x ≠ c) n b)) := by
  unfold PathIn at hp
  induction hp with
  | refl => exact fun hac => Or.inl ⟨hac, Relation.ReflTransGen.refl⟩
  | @tail m e _hab hstep ih =>
    intro hec
    by_cases hmc : m = c
    · subst hmc
      exact Or.inr ⟨e, hstep.1, ⟨hstep.2, hec⟩, Relation.ReflTransGen.refl⟩
    · rcases ih hmc with ⟨hac, hpath⟩ | ⟨n, hn, hSn, hpath⟩
      · exact Or.inl ⟨hac, hpath.tail ⟨hstep.1, hstep.2, hec⟩⟩
      · exact Or.inr ⟨n, hn, hSn, hpath.tail ⟨hstep.1, hstep.2, hec⟩⟩

theorem floodLoopT_nil (w h : Nat) (targetOpt : Option Color) (fillC : Color) :
    ∀ (fuel : Nat) (d : List Color),
      floodLoopT w h targetOpt fillC fuel d [] = (d, []) := by
  intro fuel d
  cases fuel <;> rfl

theorem floodLoop_nil (w h : Nat) (targetOpt : Option Color) (fillC : Color) :
    ∀ (fuel : Nat) (d : List Color),
      floodLoop w h targetOpt fillC fuel d [] = d := by
  intro fuel d
  cases fuel <;> rfl

theorem floodLoopT_fst (w h : Nat) (targetOpt : Option Color) (fillC : Color) :
    ∀ (fuel : Nat) (d : List Color) (q : List (Int × Int)),
      (floodLoopT w h targetOpt fillC fuel d q).1 = floodLoop w h targetOpt fillC fuel d q := by
  intro fuel
  induction fuel with
  | zero => intro d q; rfl
  | succ f ih =>
    intro d q
    cases q with
    | nil => rfl
    | cons c rest =>
      simp only [floodLoopT, floodLoop]
      split_ifs <;> simp [ih]

/-- With an empty queue the loop is done, and the invariant forces every
closure pixel to be already recolored. -/
theorem flood_done {w h : Nat} {d0 : List Color} {target fillC : Color} {seed : Int × Int}
    {d : List Color} (hinv : FloodInv w h d0 target fillC seed d []) :
    ∀ p, ClosureP w h d0 target seed p → colAt w d p = fillC := by
  intro p hp
  obtain ⟨_, _, hI3, _, hI5⟩ := hinv
  rcases hI3 p hp with hT | hF
  · obtain ⟨cq, hcq, _⟩ := hI5 p hp hT
    simp at hcq
  · exact hF

/-! ## Flood fill: the main invariant induction -/

/-- Running the loop from any state satisfying `FloodInv` with enough fuel
recolors exactly the remaining closure pixels (each exactly once, as the
trace shows) and touches nothing else. -/
theorem floodLoopT_correct {w h : Nat} {d0 : List Color} {target fillC : Color}
    {seed : Int × Int} (htf : target ≠ fillC) (hM : MatchesIn w h d0 target seed) :
    ∀ (fuel : Nat) (d : List Color) (q : List (Int × Int)),
      FloodInv w h d0 target fillC seed d q →
      5 * matchCount (some target) d + q.length ≤ fuel →
      ((floodLoopT w h (some target) fillC fuel d q).1.length = w * h
      ∧ (∀ p, InB w h p → ¬ ClosureP w h d0 target seed p →
          colAt w (floodLoopT w h (some target) fillC fuel d q).1 p = colAt w d0 p)
      ∧ (∀ p, ClosureP w h d0 target seed p →
          colAt w (floodLoopT w h (some target) fillC fuel d q).1 p = fillC)
      ∧ (∀ p, ClosureP w h d0 target seed p →
          (floodLoopT w h (some target) fillC fuel d q).2.count p
            = (if colAt w d p = target then 1 else 0))
      ∧ (∀ p, ¬ ClosureP w h d0 target seed p →
          (floodLoopT w h (some target) fillC fuel d q).2.count p = 0)) := by
  intro fuel
  induction fuel with
  | zero =>
    intro d q hinv hfuel
    have hq : q = [] := by
      cases q with
      | nil => rfl
      | cons c rest => simp at hfuel
    subst hq
    rw [floodLoopT_nil]
    obtain ⟨hI1, hI2, hI3, hI4, hI5⟩ := hinv
    refine ⟨hI1, hI2, flood_done ⟨hI1, hI2, hI3, hI4, hI5⟩, ?_, ?_⟩
    · intro p hp
      rw [if_neg (by
        rw [flood_done ⟨hI1, hI2, hI3, hI4, hI5⟩ p hp]
        exact fun hc => htf hc.symm)]
      rfl
    · intro p _hp
      rfl
  | succ f ih =>
    intro d q hinv hfuel
    cases q with
    | nil =>
      rw [floodLoopT_nil]
      obtain ⟨hI1, hI2, hI3, hI4, hI5⟩ := hinv
      refine ⟨hI1, hI2, flood_done ⟨hI1, hI2, hI3, hI4, hI5⟩, ?_, ?_⟩
      · intro p hp
        rw [if_neg (by
          rw [flood_done ⟨hI1, hI2, hI3, hI4, hI5⟩ p hp]
          exact fun hc => htf hc.symm)]
        rfl
      · intro p _hp
        rfl
    | cons c rest =>
      obtain ⟨hI1, hI2, hI3, hI4, hI5⟩ := hinv
      by_cases hoob : c.1 < 0 ∨ (w : Int) ≤ c.1 ∨ c.2 < 0 ∨ (h : Int) ≤ c.2
      · -- out-of-bounds head: skipped
        have heq : floodLoopT w h (some target) fillC (f + 1) d (c :: rest)
            = floodLoopT w h (some target) fillC f d rest := by
          simp only [floodLoopT]
          rw [if_pos hoob]
        rw [heq]
        apply ih d rest
        · refine ⟨hI1, hI2, hI3, fun x hx => hI4 x (List.mem_cons_of_mem c hx), ?_⟩
          intro p hp hT
          obtain ⟨cq, hcq, hU, hpath⟩ := hI5 p hp hT
          have hcqreal : cq ∈ rest := by
            rcases List.mem_cons.mp hcq with rfl | hr
            · exact absurd hoob (not_skip_iff.mpr (closureP_matches hM hU.1).1)
            · exact hr
          exact ⟨cq, hcqreal, hU, hpath⟩
        · simp only [List.length_cons] at hfuel
          omega
      · have hin : InB w h c := not_skip_iff.mp hoob
        by_cases hmatch : some (colAt w d c) = some target
        · -- recolor step
          have hmatchC : colAt w d c = target := Option.some.injEq .. |>.mp hmatch
          have hcC : ClosureP w h d0 target seed c := by
            rcases hI4 c (List.mem_cons_self c rest) with rfl | ⟨r, hrC, _hrF, hcr⟩
            · exact closureP_refl
            · by_contra hnc
              have h0 : colAt w d0 c = target := by
                rw [← hI2 c hin hnc]
                exact hmatchC
              exact hnc (closureP_tail hrC hcr ⟨hin, h0⟩)
          have hidx : flatIdx w c < d.length := by
            rw [hI1]
            exact flatIdx_lt hin
          set dn := d.set (flatIdx w c) fillC with hdn
          set qn := rest ++ nbrs c with hqn
          have hset_self : colAt w dn c = fillC := colAt_set_self hin hI1 fillC
          have hset_other : ∀ p, p ≠ c → InB w h p → colAt w dn p = colAt w d p := by
            intro p hne hpin
            exact colAt_set_other d _ fillC p
              (fun hix => hne (flatIdx_inj hpin hin hix.symm))
          have heq1 : (floodLoopT w h (some target) fillC (f + 1) d (c :: rest)).1
              = (floodLoopT w h (some target) fillC f dn qn).1 := by
            simp only [floodLoopT]
            rw [if_neg hoob, if_pos hmatch]
          have heq2 : (floodLoopT w h (some target) fillC (f + 1) d (c :: rest)).2
              = c :: (floodLoopT w h (some target) fillC f dn qn).2 := by
            simp only [floodLoopT]
            rw [if_neg hoob, if_pos hmatch]
          have hmc : matchCount (some target) dn + 1 = matchCount (some target) d :=
            matchCount_set hidx hmatchC htf
          have hinv' : FloodInv w h d0 target fillC seed dn qn := by
            refine ⟨by rw [hdn, List.length_set]; exact hI1, ?_, ?_, ?_, ?_⟩
            · intro p hpin hnc
              rw [hset_other p (fun hpc => hnc (hpc ▸ hcC)) hpin]
              exact hI2 p hpin hnc
            · intro p hp
              by_cases hpc : p = c
              · subst hpc
                exact Or.inr hset_self
              · rw [hset_other p hpc (closureP_matches hM hp).1]
                exact hI3 p hp
            · intro x hx
              rcases List.mem_append.mp hx with hxr | hxn
              · rcases hI4 x (List.mem_cons_of_mem c hxr) with rfl | ⟨r, hrC, hrF, hxr'⟩
                · exact Or.inl rfl
                · refine Or.inr ⟨r, hrC, ?_, hxr'⟩
                  have hrc : r ≠ c := by
                    intro hrc
                    rw [hrc, hmatchC] at hrF
                    exact htf hrF
                  rw [hset_other r hrc (closureP_matches hM hrC).1]
                  exact hrF
              · exact Or.inr ⟨c, hcC, hset_self, hxn⟩
            · intro p hp hT
              have hpc : p ≠ c := by
                intro hpc
                rw [hpc, hset_self] at hT
                exact htf hT.symm
              have hTd : colAt w d p = target := by
                rw [← hset_other p hpc (closureP_matches hM hp).1]
                exact hT
              obtain ⟨cq, hcq, hU, hpath⟩ := hI5 p hp hTd
              have hmono : ∀ x, ((ClosureP w h d0 target seed x ∧ colAt w d x = target) ∧ x ≠ c)
                  → (ClosureP w h d0 target seed x ∧ colAt w dn x = target) := by
                intro x hx
                refine ⟨hx.1.1, ?_⟩
                rw [hset_other x hx.2 (closureP_matches hM hx.1.1).1]
                exact hx.1.2
              rcases pathIn_avoid _ c hpath hpc with ⟨hcqne, hpath'⟩ | ⟨n, hnn, hSn, hpath'⟩
              · have hcqr : cq ∈ rest := by
                  rcases List.mem_cons.mp hcq with rfl | hr
                  · exact absurd rfl hcqne
                  · exact hr
                refine ⟨cq, List.mem_append_left _ hcqr, hmono cq ⟨hU, hcqne⟩, ?_⟩
                exact pathIn_mono hmono hpath'
              · refine ⟨n, List.mem_append_right _ hnn, hmono n ⟨hSn.1, hSn.2⟩, ?_⟩
                exact pathIn_mono hmono hpath'
          have hfuel' : 5 * matchCount (some target) dn + qn.length ≤ f := by
            have hqlen : qn.length = rest.length + 4 := by
              rw [hqn, List.length_append]
              rfl
            simp only [List.length_cons] at hfuel
            omega
          obtain ⟨r1, r2, r3, r4, r5⟩ := ih dn qn hinv' hfuel'
          refine ⟨by rw [heq1]; exact r1,
                  by intro p hpin hnc; rw [heq1]; exact r2 p hpin hnc,
                  by intro p hp; rw [heq1]; exact r3 p hp, ?_, ?_⟩
          · intro p hp
            rw [heq2, List.count_cons]
            by_cases hpc : p = c
            · subst hpc
              rw [r4 p hp, hset_self, if_neg (fun hc => htf hc.symm),
                if_pos hmatchC]
              simp
            · have hcount := r4 p hp
              rw [hset_other p hpc (closureP_matches hM hp).1] at hcount
              rw [hcount,
                if_neg (show ¬ ((c == p) = true) by simp only [beq_iff_eq]; exact Ne.symm hpc)]
              exact Nat.add_zero _
          · intro p hnp
            have hpc : p ≠ c := fun hpc => hnp (hpc ▸ hcC)
            rw [heq2, List.count_cons, r5 p hnp,
              if_neg (show ¬ ((c == p) = true) by simp only [beq_iff_eq]; exact Ne.symm hpc)]
        · -- head color does not match: skipped
          have heq : floodLoopT w h (some target) fillC (f + 1) d (c :: rest)
              = floodLoopT w h (some target) fillC f d rest := by
            simp only [floodLoopT]
            rw [if_neg hoob, if_neg hmatch]
          rw [heq]
          apply ih d rest
          · refine ⟨hI1, hI2, hI3, fun x hx => hI4 x (List.mem_cons_of_mem c hx), ?_⟩
            intro p hp hT
            obtain ⟨cq, hcq, hU, hpath⟩ := hI5 p hp hT
            have hcqreal : cq ∈ rest := by
              rcases List.mem_cons.mp hcq with rfl | hr
              · exact absurd (congrArg some hU.2) hmatch
              · exact hr
            exact ⟨cq, hcqreal, hU, hpath⟩
          · simp only [List.length_cons] at hfuel
            omega

/-- C3: for an in-bounds seed whose color differs from the fill color,
`fillFlood` recolors exactly the 4-connected closure of pixels that share
the seed's exact RGBA color — each such pixel is mutated exactly once (the
trace records it once) — leaves every pixel outside the closure unchanged,
and preserves the buffer dimensions. -/
theorem fillFlood_correct (b : Buf) (x y : Int) (fillColor : Color)
    (hlen : b.data.length = b.width * b.height)
    (hin : InB b.width b.height (x, y))
    (hne : colAt b.width b.data (x, y) ≠ fillColor) :
    (fillFlood b x y fillColor).width = b.width
  ∧ (fillFlood b x y fillColor).height = b.height
  ∧ (fillFlood b x y fillColor).data.length = b.data.length
  ∧ (∀ p, InClosure b (x, y) p →
      colAt b.width (fillFlood b x y fillColor).data p = fillColor)
  ∧ (∀ p, InB b.width b.height p → ¬ InClosure b (x, y) p →
      colAt b.width (fillFlood b x y fillColor).data p = colAt b.width b.data p)
  ∧ (∀ p, InClosure b (x, y) p → (fillFloodTrace b x y fillColor).count p = 1)
  ∧ (∀ p, ¬ InClosure b (x, y) p → (fillFloodTrace b x y fillColor).count p = 0) := by
  have hM : MatchesIn b.width b.height b.data (colAt b.width b.data (x, y)) (x, y) :=
    ⟨hin, rfl⟩
  have hflat : flatIdx b.width (x, y) < b.data.length := by
    rw [hlen]
    exact flatIdx_lt hin
  have hgp : getPixelColor b x y = some (colAt b.width b.data (x, y)) := by
    simp only [getPixelColor]
    rw [if_neg (show ¬ (y * (b.width : Int) + x < 0) by
      have hc : ((flatIdx b.width (x, y) : Nat) : Int) = y * (b.width : Int) + x :=
        flatIdx_cast hin
      omega)]
    exact getD_of_lt b.data (flatIdx b.width (x, y)) ⟨0, 0, 0, 0⟩ hflat
  have hguard : ¬ (getPixelColor b x y = some fillColor) := by
    rw [hgp]
    simp only [Option.some.injEq]
    exact hne
  have hnes : ¬ (some (colAt b.width b.data (x, y)) = some fillColor) :=
    fun hc => hne (Option.some.inj hc)
  have heqd : fillFlood b x y fillColor
      = { b with data := floodLoop b.width b.height (some (colAt b.width b.data (x, y)))
                  fillColor (floodFuel b) b.data [(x, y)] } := by
    simp only [fillFlood, fillFloodWith]
    rw [hgp, if_neg hnes]
  have heqt : fillFloodTrace b x y fillColor
      = (floodLoopT b.width b.height (some (colAt b.width b.data (x, y)))
          fillColor (floodFuel b) b.data [(x, y)]).2 := by
    simp only [fillFloodTrace]
    rw [hgp, if_neg hnes]
  have hinv0 : FloodInv b.width b.height b.data (colAt b.width b.data (x, y)) fillColor
      (x, y) b.data [(x, y)] := by
    refine ⟨hlen, fun p _ _ => rfl,
      fun p hp => Or.inl (closureP_matches hM hp).2, ?_, ?_⟩
    · intro cq hcq
      exact Or.inl (List.mem_singleton.mp hcq)
    · intro p hp _hT
      refine ⟨(x, y), List.mem_singleton.mpr rfl, ⟨closureP_refl, rfl⟩, ?_⟩
      exact pathIn_mono (fun z hz => ⟨hz, (closureP_matches hM hz).2⟩) (closureP_path hM hp)
  have hfuel0 : 5 * matchCount (some (colAt b.width b.data (x, y))) b.data
      + ([(x, y)] : List (Int × Int)).length ≤ floodFuel b := by
    have hmc := @matchCount_le (some (colAt b.width b.data (x, y))) b.data
    rw [hlen] at hmc
    simp only [List.length_singleton, floodFuel]
    rw [mul_assoc]
    omega
  obtain ⟨r1, r2, r3, r4, r5⟩ := floodLoopT_correct hne hM (floodFuel b) b.data [(x, y)]
    hinv0 hfuel0
  have hdata : (fillFlood b x y fillColor).data
      = (floodLoopT b.width b.height (some (colAt b.width b.data (x, y)))
          fillColor (floodFuel b) b.data [(x, y)]).1 := by
    rw [heqd]
    exact (floodLoopT_fst b.width b.height (some (colAt b.width b.data (x, y)))
      fillColor (floodFuel b) b.data [(x, y)]).symm
  refine ⟨by rw [heqd], by rw [heqd], ?_, ?_, ?_, ?_, ?_⟩
  · rw [hdata, r1, hlen]
  · intro p hp
    rw [hdata]
    exact r3 p hp
  · intro p hpin hnc
    rw [hdata]
    exact r2 p hpin hnc
  · intro p hp
    rw [heqt, r4 p hp, if_pos (closureP_matches hM hp).2]
  · intro p hnp
    rw [heqt]
    exact r5 p hnp

theorem fillFlood_correct_witness :
    colAt 3 (fillFlood ⟨3, 1, [⟨1, 1, 1, 1⟩, ⟨1, 1, 1, 1⟩, ⟨2, 2, 2, 2⟩]⟩ 0 0 ⟨3, 3, 3, 3⟩).data
        (1, 0) = ⟨3, 3, 3, 3⟩
  ∧ (fillFloodTrace ⟨3, 1, [⟨1, 1, 1, 1⟩, ⟨1, 1, 1, 1⟩, ⟨2, 2, 2, 2⟩]⟩ 0 0 ⟨3, 3, 3, 3⟩).count
        (1, 0) = 1
  ∧ colAt 3 (fillFlood ⟨3, 1, [⟨1, 1, 1, 1⟩, ⟨1, 1, 1, 1⟩, ⟨2, 2, 2, 2⟩]⟩ 0 0 ⟨3, 3, 3, 3⟩).data
        (2, 0) = ⟨2, 2, 2, 2⟩
  ∧ (fillFloodTrace ⟨3, 1, [⟨1, 1, 1, 1⟩, ⟨1, 1, 1, 1⟩, ⟨2, 2, 2, 2⟩]⟩ 0 0 ⟨3, 3, 3, 3⟩).count
        (2, 0) = 0 := by
  obtain ⟨_, _, _, c4, c5, c6, c7⟩ :=
    fillFlood_correct ⟨3, 1, [⟨1, 1, 1, 1⟩, ⟨1, 1, 1, 1⟩, ⟨2, 2, 2, 2⟩]⟩ 0 0 ⟨3, 3, 3, 3⟩
      (by decide) (by decide) (by decide)
  have hcl : InClosure ⟨3, 1, [⟨1, 1, 1, 1⟩, ⟨1, 1, 1, 1⟩, ⟨2, 2, 2, 2⟩]⟩ (0, 0) (1, 0) :=
    Relation.ReflTransGen.single ⟨by decide, by decide, by decide⟩
  have hncl : ¬ InClosure ⟨3, 1, [⟨1, 1, 1, 1⟩, ⟨1, 1, 1, 1⟩, ⟨2, 2, 2, 2⟩]⟩ (0, 0) (2, 0) :=
    fun hcl2 => absurd (closureP_matches ⟨by decide, by decide⟩ hcl2).2 (by decide)
  exact ⟨c4 (1, 0) hcl, c6 (1, 0) hcl, c5 (2, 0) (by decide) hncl, c7 (2, 0) hncl⟩

/-! ## Termination of the flood-fill loop (C10) -/

theorem matchCount_set_opt {d : List Color} {i : Nat} (hi : i < d.length)
    {targetOpt : Option Color} {fillC : Color}
    (hdi : some (d.getD i ⟨0, 0, 0, 0⟩) = targetOpt) (hne : targetOpt ≠ some fillC) :
    matchCount targetOpt (d.set i fillC) + 1 = matchCount targetOpt d := by
  cases targetOpt with
  | none => simp at hdi
  | some t =>
    exact matchCount_set hi (Option.some.inj hdi)
      (fun hc => hne (by rw [hdi.symm, Option.some.inj hdi, hc]))

/-- The FIFO loop drains its queue within `5 * matchCount + |queue|`
iterations: every step either consumes a queue entry outright or recolors a
matching pixel (decreasing the match count) while enqueuing four
neighbours. -/
theorem floodDrains_suff (w h : Nat) (targetOpt : Option Color) (fillC : Color)
    (hne : targetOpt ≠ some fillC) :
    ∀ (fuel : Nat) (d : List Color) (q : List (Int × Int)),
      d.length = w * h →
      5 * matchCount targetOpt d + q.length ≤ fuel →
      floodDrains w h targetOpt fillC fuel d q = true := by
  intro fuel
  induction fuel with
  | zero =>
    intro d q hd hf
    have hq : q = [] := by
      cases q with
      | nil => rfl
      | cons c rest => simp at hf
    subst hq
    rfl
  | succ f ih =>
    intro d q hd hf
    cases q with
    | nil => rfl
    | cons c rest =>
      simp only [List.length_cons] at hf
      simp only [floodDrains]
      split_ifs with h1 h2
      · exact ih d rest hd (by omega)
      · have hin : InB w h c := not_skip_iff.mp h1
        have hidx : flatIdx w c < d.length := by
          rw [hd]
          exact flatIdx_lt hin
        have hmc : matchCount targetOpt (d.set (flatIdx w c) fillC) + 1
            = matchCount targetOpt d :=
          matchCount_set_opt hidx h2 hne
        apply ih
        · rw [List.length_set]
          exact hd
        · rw [List.length_append, show (nbrs c).length = 4 from rfl]
          omega
      · exact ih d rest hd (by omega)

/-- The loop's result does not depend on the fuel once the fuel covers the
`5 * matchCount + |queue|` bound. -/
theorem floodLoop_fuel_irrel (w h : Nat) (targetOpt : Option Color) (fillC : Color)
    (hne : targetOpt ≠ some fillC) :
    ∀ (f1 f2 : Nat) (d : List Color) (q : List (Int × Int)),
      d.length = w * h →
      5 * matchCount targetOpt d + q.length ≤ f1 →
      5 * matchCount targetOpt d + q.length ≤ f2 →
      floodLoop w h targetOpt fillC f1 d q = floodLoop w h targetOpt fillC f2 d q := by
  intro f1
  induction f1 with
  | zero =>
    intro f2 d q hd h1 h2
    have hq : q = [] := by
      cases q with
      | nil => rfl
      | cons c rest => simp at h1
    subst hq
    rw [floodLoop_nil, floodLoop_nil]
  | succ f ih =>
    intro f2 d q hd h1 h2
    cases q with
    | nil => rw [floodLoop_nil, floodLoop_nil]
    | cons c rest =>
      simp only [List.length_cons] at h1 h2
      obtain ⟨f2', rfl⟩ : ∃ f2', f2 = f2' + 1 := ⟨f2 - 1, by omega⟩
      simp only [floodLoop]
      split_ifs with hA hB
      · exact ih f2' d rest hd (by omega) (by omega)
      · have hin : InB w h c := not_skip_iff.mp hA
        have hidx : flatIdx w c < d.length := by
          rw [hd]
          exact flatIdx_lt hin
        have hmc : matchCount targetOpt (d.set (flatIdx w c) fillC) + 1
            = matchCount targetOpt d :=
          matchCount_set_opt hidx hB hne
        apply ih
        · rw [List.length_set]
          exact hd
        · rw [List.length_append, show (nbrs c).length = 4 from rfl]
          omega
        · rw [List.length_append, show (nbrs c).length = 4 from rfl]
          omega
      · exact ih f2' d rest hd (by omega) (by omega)

/-- C10: `fillFlood` terminates on every finite buffer and seed. The
`while` loop is embedded with fuel; with `5·width·height + 1` fuel the FIFO
queue provably drains to empty (each matching pixel is recolored at most
once, after which it no longer matches because the fill color differs from
the target under the seed guard), and any additional fuel leaves the result
unchanged. -/
theorem fillFlood_terminates (b : Buf) (x y : Int) (fillColor : Color)
    (hlen : b.data.length = b.width * b.height) :
    (∀ fuel, floodFuel b ≤ fuel →
        fillFloodWith fuel b x y fillColor = fillFlood b x y fillColor)
  ∧ (getPixelColor b x y ≠ some fillColor →
      floodDrains b.width b.height (getPixelColor b x y) fillColor
        (floodFuel b) b.data [(x, y)] = true) := by
  have hmeas : 5 * matchCount (getPixelColor b x y) b.data
      + ([(x, y)] : List (Int × Int)).length ≤ floodFuel b := by
    have hmc := @matchCount_le (getPixelColor b x y) b.data
    rw [hlen] at hmc
    simp only [List.length_singleton, floodFuel]
    rw [mul_assoc]
    omega
  constructor
  · intro fuel hfuel
    unfold fillFlood fillFloodWith
    by_cases hg : getPixelColor b x y = some fillColor
    · rw [if_pos hg, if_pos hg]
    · rw [if_neg hg, if_neg hg]
      congr 1
      exact floodLoop_fuel_irrel b.width b.height (getPixelColor b x y) fillColor hg
        fuel (floodFuel b) b.data [(x, y)] hlen (le_trans hmeas hfuel) hmeas
  · intro hg
    exact floodDrains_suff b.width b.height (getPixelColor b x y) fillColor hg
      (floodFuel b) b.data [(x, y)] hlen hmeas

theorem fillFlood_terminates_witness :
    fillFloodWith (floodFuel ⟨3, 1, [⟨1, 1, 1, 1⟩, ⟨1, 1, 1, 1⟩, ⟨2, 2, 2, 2⟩]⟩ + 7)
        ⟨3, 1, [⟨1, 1, 1, 1⟩, ⟨1, 1, 1, 1⟩, ⟨2, 2, 2, 2⟩]⟩ 0 0 ⟨3, 3, 3, 3⟩
      = fillFlood ⟨3, 1, [⟨1, 1, 1, 1⟩, ⟨1, 1, 1, 1⟩, ⟨2, 2, 2, 2⟩]⟩ 0 0 ⟨3, 3, 3, 3⟩
  ∧ floodDrains 3 1 (getPixelColor ⟨3, 1, [⟨1, 1, 1, 1⟩, ⟨1, 1, 1, 1⟩, ⟨2, 2, 2, 2⟩]⟩ 0 0)
        ⟨3, 3, 3, 3⟩ (floodFuel ⟨3, 1, [⟨1, 1, 1, 1⟩, ⟨1, 1, 1, 1⟩, ⟨2, 2, 2, 2⟩]⟩)
        [⟨1, 1, 1, 1⟩, ⟨1, 1, 1, 1⟩, ⟨2, 2, 2, 2⟩] [(0, 0)] = true := by
  obtain ⟨c1, c2⟩ :=
    fillFlood_terminates ⟨3, 1, [⟨1, 1, 1, 1⟩, ⟨1, 1, 1, 1⟩, ⟨2, 2, 2, 2⟩]⟩ 0 0 ⟨3, 3, 3, 3⟩
      (by decide)
  exact ⟨c1 _ (by decide), c2 (by decide)⟩

end MoveApp
